import Mathlib

/-!
Verification development for the splat-transform repository.

The definitions below are shallow embeddings of the C++ sources under `src/`.
Machine floats are modelled as exact rational scalars (`Fx`, an unnormalized
fraction of integers, so that every operation reduces in the kernel); machine
integers are modelled as `ℕ`/`ℤ` with explicit wrapping where overflow
matters.  Each definition's doc comment names the source file and symbol it
embeds.
-/

namespace SplatTransform

/-- Exact rational scalar modelling an IEEE float value.  The fraction is kept
unnormalized (no gcd reduction); every operation below keeps `den` positive,
so order comparisons by cross-multiplication are valid. -/
structure Fx where
  num : ℤ
  den : ℤ
deriving DecidableEq, Repr

instance : OfNat Fx n := ⟨⟨n, 1⟩⟩

instance : Neg Fx := ⟨fun a => ⟨-a.num, a.den⟩⟩

instance : Add Fx := ⟨fun a b => ⟨a.num * b.den + b.num * a.den, a.den * b.den⟩⟩

instance : Sub Fx := ⟨fun a b => ⟨a.num * b.den - b.num * a.den, a.den * b.den⟩⟩

instance : Mul Fx := ⟨fun a b => ⟨a.num * b.num, a.den * b.den⟩⟩

/-- Division of scalars; the sign is moved into the numerator so that the
denominator stays positive (undefined for a zero divisor, as in C++). -/
def Fx.div (a b : Fx) : Fx :=
  if b.num < 0 then ⟨-(a.num * b.den), a.den * (-b.num)⟩ else ⟨a.num * b.den, a.den * b.num⟩

/-- Strict order test by cross-multiplication (`<` on floats). -/
def Fx.blt (a b : Fx) : Bool := decide (a.num * b.den < b.num * a.den)

/-- Value equality test by cross-multiplication (`==` on floats). -/
def Fx.beq (a b : Fx) : Bool := decide (a.num * b.den = b.num * a.den)

/-- Absolute value (`std::abs`). -/
def Fx.abs (a : Fx) : Fx := ⟨|a.num|, a.den⟩

/-- Minimum of two scalars (`std::min`). -/
def Fx.min (a b : Fx) : Fx := if Fx.blt b a then b else a

/-- Maximum of two scalars (`std::max`). -/
def Fx.max (a b : Fx) : Fx := if Fx.blt a b then b else a

/-- Truncating cast of a scalar to an unsigned integer
(`static_cast<uint32_t>`; negative values are treated as zero, which agrees
with every use below since the source clamps with `max(0, ·)` first). -/
def Fx.truncNat (a : Fx) : ℕ := (a.num / a.den).toNat

/-- Element type tags of a typed column
(`src/include/splat/models/data-table.h`, the `TypedArray` variant). -/
inductive ColType
  | i8 | u8 | i16 | u16 | i32 | u32 | f32 | f64
deriving DecidableEq, Repr

/-- A named, typed column (`src/include/splat/models/data-table.h`, `Column`). -/
structure Column where
  name : String
  ty : ColType
  data : List Fx
deriving DecidableEq, Repr

/-- A columnar table (`src/include/splat/models/data-table.h`, `DataTable`). -/
structure DataTable where
  columns : List Column
deriving DecidableEq, Repr

/-- Row count: length of the first column, 0 for a column-less table
(`DataTable::getNumRows`). -/
def DataTable.getNumRows (dt : DataTable) : ℕ :=
  match dt.columns with
  | [] => 0
  | c :: _ => c.data.length

/-- Column presence by name (`DataTable::hasColumn`). -/
def DataTable.hasColumn (dt : DataTable) (name : String) : Bool :=
  dt.columns.any (fun c => c.name = name)

/-- Lookup of a column by name (`DataTable::getColumnByName`); the source
throws when the column is absent, callers below only use it under
`hasColumn`. -/
def DataTable.getColumnByName (dt : DataTable) (name : String) : Column :=
  (dt.columns.find? (fun c => c.name = name)).getD ⟨name, ColType.f32, []⟩

/-- Epsilon used by the float paths of `Column::every` / `Column::some`
(`src/include/splat/models/data-table.h`, `1e-10`). -/
def floatEps : Fx := ⟨1, 10 ^ 10⟩

/-- Column predicate: all elements equal the target up to `floatEps`
(`Column::every`, floating-point branch; the `lod` column is f32). -/
def Column.everyVal (c : Column) (v : Fx) : Bool :=
  c.data.all (fun x => Fx.blt (Fx.abs (x - v)) floatEps)

/-- Column predicate: some element equals the target up to `floatEps`
(`Column::some`, floating-point branch). -/
def Column.someVal (c : Column) (v : Fx) : Bool :=
  c.data.any (fun x => Fx.blt (Fx.abs (x - v)) floatEps)

/-- The `required_columns` list of `isGSDataTable` in `src/app/main.cpp`
(lines 288-290), reproduced verbatim: the fourth entry is a single string
containing all four `rot_*` names with embedded quote characters
(`\x27` is the apostrophe). -/
def required_columns : List String :=
  ["x", "y", "z", "rot_0\x27, \x27rot_1\x27, \x27rot_2\x27, \x27rot_3",
   "scale_0", "scale_1", "scale_2", "f_dc_0", "f_dc_1", "f_dc_2", "opacity"]

/-- The splat-schema check of the driver (`src/app/main.cpp`, `isGSDataTable`). -/
def isGSDataTable (dt : DataTable) : Bool :=
  required_columns.all (fun c => dt.hasColumn c)

/-- The fourteen column names of a standard Gaussian splat table (spec §3). -/
def standardSplatColumnNames : List String :=
  ["x", "y", "z", "rot_0", "rot_1", "rot_2", "rot_3",
   "scale_0", "scale_1", "scale_2", "f_dc_0", "f_dc_1", "f_dc_2", "opacity"]

/-- A one-row table carrying exactly the fourteen standard splat columns. -/
def standardSplatTable : DataTable :=
  ⟨standardSplatColumnNames.map (fun n => ⟨n, ColType.f32, [0]⟩)⟩

/-- A one-row table with only the position columns. -/
def xyzOnlyTable : DataTable :=
  ⟨[⟨"x", ColType.f32, [0]⟩, ⟨"y", ColType.f32, [0]⟩, ⟨"z", ColType.f32, [0]⟩]⟩

/-- The environment/non-environment grouping of the driver
(`src/app/main.cpp`, lines 396-400): a table joins the environment group when
it has a `lod` column with every value −1, and joins the non-environment group
when it has no `lod` column or some `lod` value equals −1. -/
def envSplit (inputDataTables : List DataTable) : List DataTable × List DataTable :=
  (inputDataTables.filter
    (fun dt => dt.hasColumn "lod" && (dt.getColumnByName "lod").everyVal (-1)),
   inputDataTables.filter
    (fun dt => !dt.hasColumn "lod" ||
      (dt.hasColumn "lod" && (dt.getColumnByName "lod").someVal (-1))))

/-- One-row table whose single `lod` value is −1 (an environment table). -/
def lodAllEnvTable : DataTable := ⟨[⟨"lod", ColType.f32, [-1]⟩]⟩

/-- One-row table with a `lod` column whose single value is 5 (no −1 rows). -/
def lodNoEnvTable : DataTable := ⟨[⟨"lod", ColType.f32, [5]⟩]⟩

/-- Index of the first column matching by name and type, −1 when absent
(`src/src/op/combine.cpp`, `findMatchingColumn`). -/
def findMatchingColumn (columns : List Column) (column : Column) : Int :=
  match columns.findIdx? (fun c => c.name = column.name && c.ty = column.ty) with
  | some i => (i : Int)
  | none => -1

/-- Table combination (`src/src/op/combine.cpp`, `combine`): `none` for an
empty list, the single table unchanged for a singleton, otherwise the
column-union by (name, type) with rows concatenated and zero-fill for columns
absent from some inputs (the source zero-initializes the output storage and
copies each input's matching columns at its row offset). -/
def combine (dataTables : List DataTable) : Option DataTable :=
  match dataTables with
  | [] => none
  | [dt] => some dt
  | dt0 :: rest =>
    let columns := rest.foldl
      (fun cols dt =>
        dt.columns.foldl
          (fun cols c => if findMatchingColumn cols c = -1 then cols ++ [c] else cols)
          cols)
      dt0.columns
    let resultColumns := columns.map (fun col =>
      { name := col.name, ty := col.ty,
        data := (dataTables.map (fun dt =>
          match dt.columns.find? (fun c => c.name = col.name && c.ty = col.ty) with
          | some c => c.data
          | none => List.replicate dt.getNumRows (0 : Fx))).flatten })
    some ⟨resultColumns⟩

/-- Column names of a table in order (`DataTable::getColumnNames`). -/
def DataTable.getColumnNames (dt : DataTable) : List String :=
  dt.columns.map (fun c => c.name)

/-- Value of row `r` in the named column (`DataTable::getRow` delivers the row
as a name-to-float mapping; out-of-range reads yield 0 here). -/
def DataTable.rowVal (dt : DataTable) (r : ℕ) (name : String) : Fx :=
  (dt.getColumnByName name).data.getD r 0

/-- Pointwise update of a row mapping at one key (`row[key] += ...`). -/
def rowUpdate (row : List (String × Fx)) (key : String) (f : Fx → Fx) : List (String × Fx) :=
  row.map (fun p => if p.1 = key then (p.1, f p.2) else p)

/-- Centroid recomputation of k-means (`src/src/maths/kmeans.cpp`,
`calcAverage`), embedded as written: the inner loop over `j` reads
`keys[i]` — the cluster-member index — so for member `i` it adds
`dataRow[keys[i]]` to `row[keys[i]]` once per column instead of summing every
column over the members (reading `keys[i]` for `i ≥ keys.size()` is
out-of-bounds in the source; here it yields the absent key `""`). -/
def calcAverage (dataTable : DataTable) (cluster : List ℕ) : List (String × Fx) :=
  let keys := dataTable.getColumnNames
  let row0 := keys.map (fun k => (k, (0 : Fx)))
  let summed := (List.range cluster.length).foldl
    (fun row i =>
      (List.range keys.length).foldl
        (fun row _j =>
          let key := keys.getD i ""
          rowUpdate row key (fun v => v + dataTable.rowVal (cluster.getD i 0) key))
        row)
    row0
  if cluster.length > 0 then
    summed.map (fun p => (p.1, Fx.div p.2 ⟨(cluster.length : ℤ), 1⟩))
  else summed

/-- The k-means assignment step (`src/src/maths/kmeans.cpp` line 95,
`clusterKdTreeCpu`): the source function body is empty, so the labels buffer
is returned untouched. -/
def clusterKdTreeCpu (labels : List ℕ) : List ℕ := labels

/-- Reference definition following the spec's words (§4.7): each centroid
coordinate is the mean of the cluster members' values in that column. -/
def clusterMean (dataTable : DataTable) (cluster : List ℕ) : List (String × Fx) :=
  dataTable.getColumnNames.map (fun k =>
    (k, Fx.div (cluster.foldl (fun acc r => acc + dataTable.rowVal r k) 0)
      ⟨(cluster.length : ℤ), 1⟩))

/-- A two-column, two-row data table used to evaluate `calcAverage`. -/
def kmeansExampleTable : DataTable :=
  ⟨[⟨"a", ColType.f32, [1, 5]⟩, ⟨"b", ColType.f32, [3, 7]⟩]⟩

/-- The channel-order table of the quaternion packing
(`src/src/writers/sog_writer.cpp` line 271, `QUAT_IDX_MAP`), verbatim. -/
def QUAT_IDX_MAP : List (List ℕ) := [[0, 1, 2], [1, 2, 0], [2, 0, 1], [0, 1, 2]]

/-- Reference definition following the spec's words (§4.10): the canonical
order of the three remaining quaternion components per largest-component
index. -/
def canonicalQuatIdxMap : List (List ℕ) := [[1, 2, 3], [0, 2, 3], [0, 1, 3], [0, 1, 2]]

/-- Index of the first largest-magnitude component (`std::max_element` with
the comparator `|a| < |b|`, sog_writer.cpp lines 259-260). -/
def maxComp (q : List Fx) : ℕ :=
  (List.range q.length).foldl
    (fun best i =>
      if Fx.blt (Fx.abs (q.getD best 0)) (Fx.abs (q.getD i 0)) then i else best)
    0

/-- The component-selection layer of the quats.webp packing (`writeQuaternions`
in sog_writer.cpp, lines 257-277): the source component indices stored in
channels R,G,B and the alpha tag `252 + maxComp`.  The selection happens
after normalization and conditional negation, neither of which changes which
index has the largest magnitude; the subsequent affine byte map
`v ↦ (0.5·v·√2+0.5)·255+0.5` is applied to the selected components
identically in code and spec and is not needed to settle the claim. -/
def quatChannelSources (q : List Fx) : List ℕ × ℕ :=
  let m := maxComp q
  (QUAT_IDX_MAP.getD m [], 252 + m)

/-- Texture width of the quantizing writer (`src/src/writers/sog_writer.cpp`
line 154): `ceil(sqrt(numRows)/4)*4` computed with a real square root equals
`4*k` for the least `k` with `16*k*k ≥ numRows`, which is what this
definition computes. -/
def sogTextureWidth (numRows : ℕ) : ℕ :=
  4 * (List.range (numRows + 1)).findIdx (fun k => decide (numRows ≤ 16 * k * k))

/-- Texture height as the source computes it (sog_writer.cpp line 155):
`ceil(numRows / width / 4) * 4` where both divisions are C++ `size_t`
integer divisions, so `ceil` receives an already-truncated integer and is the
identity. -/
def sogTextureHeight (numRows : ℕ) : ℕ :=
  numRows / sogTextureWidth numRows / 4 * 4

/-- Reference definition following the spec's words (§4.10):
`height = 4·⌈n/(4·width)⌉` with a true ceiling. -/
def sogTextureHeightSpec (numRows : ℕ) : ℕ :=
  4 * ((numRows + 4 * sogTextureWidth numRows - 1) / (4 * sogTextureWidth numRows))

/-- Running minimum over a set of row indices of one column
(`AABB::fromCentroids` in `src/src/maths/btree.cpp`: `m` starts at +∞ and is
lowered by `std::min(v, m)`; `none` models the untouched +∞ start, so the
result is `some` exactly when the index list is nonempty). -/
def foldMinFx (vals : ℕ → Fx) (indices : List ℕ) : Option Fx :=
  indices.foldl
    (fun m i =>
      match m with
      | none => some (vals i)
      | some m => some (if Fx.blt (vals i) m then vals i else m))
    none

/-- Running maximum over a set of row indices of one column (see `foldMinFx`). -/
def foldMaxFx (vals : ℕ → Fx) (indices : List ℕ) : Option Fx :=
  indices.foldl
    (fun m i =>
      match m with
      | none => some (vals i)
      | some m => some (if Fx.blt m (vals i) then vals i else m))
    none

/-- Axis-aligned bounding box over centroid columns
(`src/src/maths/btree.cpp`, `AABB`). -/
structure AABB where
  lo : List (Option Fx)
  hi : List (Option Fx)
deriving Repr

/-- Bounding box of the rows selected by `indices`
(`AABB::fromCentroids`, maths/btree.cpp lines 173-188). -/
def AABB.fromCentroids (centroids : List (ℕ → Fx)) (indices : List ℕ) : AABB :=
  ⟨centroids.map (fun c => foldMinFx c indices),
   centroids.map (fun c => foldMaxFx c indices)⟩

/-- Index of the widest axis, −1 for a column-less box
(`AABB::largestAxis`, maths/btree.cpp lines 142-155: the running largest
extent starts at −∞, modelled by `none`, so the first finite extent always
wins; an all-`none` axis, which only arises from an empty index set, is
skipped). -/
def AABB.largestAxis (aabb : AABB) : Int :=
  ((List.range aabb.lo.length).foldl
    (fun st i =>
      match aabb.hi.getD i none, aabb.lo.getD i none with
      | some h, some l =>
        let e := h - l
        (match st.1 with
         | none => (some e, (i : Int))
         | some best => if Fx.blt best e then (some e, (i : Int)) else st)
      | _, _ => st)
    ((none : Option Fx), (-1 : Int))).2

/-- In-place swap of two positions of the index array
(the `swap` lambda of `quickselect`, maths/btree.cpp lines 49-54). -/
def idxSwap (idx : List ℕ) (i j : ℕ) : List ℕ :=
  if i = j then idx else (idx.set i (idx.getD j 0)).set j (idx.getD i 0)

/-- The ascending scan of quickselect's partition loop
(`do { i++; } while (i <= r && valAt(i) < pivotVal)`). -/
def qsScanUp (data : ℕ → Fx) (idx : List ℕ) (pivotVal : Fx) (r : ℕ) (i : ℕ) : ℕ :=
  if i ≤ r ∧ Fx.blt (data (idx.getD i 0)) pivotVal then qsScanUp data idx pivotVal r (i + 1)
  else i
termination_by r + 1 - i

/-- The descending scan of quickselect's partition loop
(`do { j--; } while (j >= l && valAt(j) > pivotVal)`); the argument is the
value of `j` before the decrement.  The `0` case is unreachable in the
source's calling pattern because after the median-of-three step
`valAt(l) ≤ pivotVal`, so the scan stops at `l` at the latest. -/
def qsScanDown (data : ℕ → Fx) (idx : List ℕ) (pivotVal : Fx) (l : ℕ) : ℕ → ℕ
  | 0 => 0
  | j + 1 =>
    if l ≤ j ∧ Fx.blt pivotVal (data (idx.getD j 0)) then qsScanDown data idx pivotVal l j
    else j

/-- The inner partition loop of quickselect (maths/btree.cpp lines 102-117):
scan up from `i`, scan down from `j`, stop when they cross, otherwise swap
and repeat.  Returns the partitioned index array and the final `j`.  The loop
is given fuel; the source loop terminates because the scans strictly
narrow the window. -/
def qsPartition (data : ℕ → Fx) (pivotVal : Fx) (l r : ℕ) :
    ℕ → List ℕ → ℕ → ℕ → List ℕ × ℕ
  | 0, idx, _, j => (idx, j)
  | fuel + 1, idx, i, j =>
    let i2 := qsScanUp data idx pivotVal r (i + 1)
    let j2 := qsScanDown data idx pivotVal l j
    if j2 < i2 then (idx, j2)
    else qsPartition data pivotVal l r fuel (idxSwap idx i2 j2) i2 j2

/-- Quickselect with median-of-three pivot on an index array
(`src/src/maths/btree.cpp`, `quickselect`, lines 42-163), partitioning the
indices so that positions `< k` hold values `≤` the k-th smallest.  The
non-recursive source loop is given fuel; the `k out of range` throw of the
source cannot fire from `BTree::recurse`, which always passes
`k = n/2 < n`. -/
def quickselect (data : ℕ → Fx) : ℕ → List ℕ → ℕ → ℕ → ℕ → List ℕ
  | 0, idx, _, _, _ => idx
  | fuel + 1, idx, k, l, r =>
    if r ≤ l + 1 then
      if r = l + 1 ∧ Fx.blt (data (idx.getD r 0)) (data (idx.getD l 0)) then idxSwap idx l r
      else idx
    else
      let mid := l + (r - l) / 2
      let idx1 := idxSwap idx mid (l + 1)
      let idx2 :=
        if Fx.blt (data (idx1.getD r 0)) (data (idx1.getD l 0)) then idxSwap idx1 l r else idx1
      let idx3 :=
        if Fx.blt (data (idx2.getD r 0)) (data (idx2.getD (l + 1) 0)) then idxSwap idx2 (l + 1) r
        else idx2
      let idx4 :=
        if Fx.blt (data (idx3.getD (l + 1) 0)) (data (idx3.getD l 0)) then idxSwap idx3 l (l + 1)
        else idx3
      let pivotVal := data (idx4.getD (l + 1) 0)
      let pivotIdx := idx4.getD (l + 1) 0
      let part := qsPartition data pivotVal l r (r + 2) idx4 (l + 1) r
      let j := part.2
      let idx5 := ((part.1).set (l + 1) ((part.1).getD j 0)).set j pivotIdx
      if j = k then idx5
      else if k < j then quickselect data fuel idx5 k l (j - 1)
      else quickselect data fuel idx5 k (j + 1) r

/-- A node of the median-split BVH (`src/src/maths/btree.cpp`, `BTreeNode`):
leaves keep their index list, interior nodes keep only children. -/
inductive BTreeNode where
  | leaf (count : ℕ) (aabb : AABB) (indices : List ℕ)
  | node (count : ℕ) (aabb : AABB) (left right : BTreeNode)

/-- Left child of a node, `none` at a leaf (`BTreeNode::left`). -/
def BTreeNode.leftChild : BTreeNode → Option BTreeNode
  | .leaf _ _ _ => none
  | .node _ _ l _ => some l

/-- Right child of a node, `none` at a leaf (`BTreeNode::right`). -/
def BTreeNode.rightChild : BTreeNode → Option BTreeNode
  | .leaf _ _ _ => none
  | .node _ _ _ r => some r

/-- The recursive build of the maths-variant BVH
(`src/src/maths/btree.cpp`, `BTree::recurse`, lines 212-263), embedded as
written: after partitioning, the source computes `leftIndices` and
`rightIndices` but then constructs `node->left = recurse(leftIndices)` and
`node->right = recurse(leftIndices)`, so `rightIndices` is never used.  The
recursion is given fuel (the source recursion terminates on halving index
lists); fuel exhaustion yields a leaf. -/
def BTree.recurse (centroids : List (ℕ → Fx)) : ℕ → List ℕ → BTreeNode
  | 0, indices =>
    .leaf indices.length (AABB.fromCentroids centroids indices) indices
  | fuel + 1, indices =>
    let aabb := AABB.fromCentroids centroids indices
    if indices.length ≤ 256 then .leaf indices.length aabb indices
    else if aabb.largestAxis = -1 then .leaf indices.length aabb indices
    else
      let values := centroids.getD aabb.largestAxis.toNat (fun _ => 0)
      let mid := indices.length / 2
      let part := quickselect values (indices.length + 1) indices mid 0 (indices.length - 1)
      let leftIndices := part.take mid
      let _rightIndices := part.drop mid
      .node indices.length aabb (BTree.recurse centroids fuel leftIndices)
        (BTree.recurse centroids fuel leftIndices)

/-- Bit spreading of a 10-bit coordinate
(`src/src/models/morton-order.cpp`, `part1By2`).  All intermediate values fit
in 32 bits, so plain naturals model the `uint32_t` arithmetic exactly. -/
def part1By2 (x : ℕ) : ℕ :=
  let x1 := x &&& 0x000003ff
  let x2 := (x1 ^^^ (x1 <<< 16)) &&& 0xff0000ff
  let x3 := (x2 ^^^ (x2 <<< 8)) &&& 0x0300f00f
  let x4 := (x3 ^^^ (x3 <<< 4)) &&& 0x030c30c3
  (x4 ^^^ (x4 <<< 2)) &&& 0x09249249

/-- Thirty-bit Morton code from three 10-bit coordinates
(`morton-order.cpp`, `encodeMorton3`). -/
def encodeMorton3 (x y z : ℕ) : ℕ :=
  (part1By2 z <<< 2) + (part1By2 y <<< 1) + part1By2 x

/-- The three position columns accessed by `sortMortonOrder`
(`dataTable->getColumnByName("x"/"y"/"z").asSpan<float>()`). -/
structure PosTable where
  cx : ℕ → Fx
  cy : ℕ → Fx
  cz : ℕ → Fx

/-- Grouping of the sorted (index, code) pairs into maximal runs of equal
codes (`morton-order.cpp` lines 100-106: the `start`/`end` scan over
`mortonCodes[order[...]]`; since code equality is transitive, scanning for
the first differing code groups exactly the maximal blocks of consecutive
equal codes, which is what this structural recursion computes). -/
def splitRuns : List (ℕ × ℕ) → List (List (ℕ × ℕ))
  | [] => []
  | p :: rest =>
    match splitRuns rest with
    | [] => [[p]]
    | run :: runs =>
      if (run.headD p).2 = p.2 then (p :: run) :: runs else [p] :: run :: runs

/-- One pass of the Morton reorder (`src/src/models/morton-order.cpp`,
`sortMortonOrder`, lines 48-110) with the recursive refinement abstracted
into `recur`: compute the axis bounds over the subset (the non-finite early
return of the source cannot fire for exact rationals and also returns the
buffer unchanged), return unchanged if all extents are zero, otherwise
quantize each point to 10 bits per axis, stable-sort the index buffer by
Morton code, and re-run on every run of more than 256 equal codes. -/
def mortonPass (tbl : PosTable) (recur : List ℕ → List ℕ) (indices : List ℕ) : List ℕ :=
  if indices.isEmpty then indices
  else
    let mx := (foldMinFx tbl.cx indices).getD 0
    let bigMx := (foldMaxFx tbl.cx indices).getD 0
    let my := (foldMinFx tbl.cy indices).getD 0
    let bigMy := (foldMaxFx tbl.cy indices).getD 0
    let mz := (foldMinFx tbl.cz indices).getD 0
    let bigMz := (foldMaxFx tbl.cz indices).getD 0
    let xlen := bigMx - mx
    let ylen := bigMy - my
    let zlen := bigMz - mz
    if Fx.beq xlen 0 ∧ Fx.beq ylen 0 ∧ Fx.beq zlen 0 then indices
    else
      let xmul := if Fx.beq xlen 0 then (0 : Fx) else Fx.div ⟨1024, 1⟩ xlen
      let ymul := if Fx.beq ylen 0 then (0 : Fx) else Fx.div ⟨1024, 1⟩ ylen
      let zmul := if Fx.beq zlen 0 then (0 : Fx) else Fx.div ⟨1024, 1⟩ zlen
      let quant := fun (c m mul : Fx) => Nat.min 1023 (Fx.truncNat (Fx.max 0 ((c - m) * mul)))
      let mortonCodes := indices.map (fun ri =>
        encodeMorton3 (quant (tbl.cx ri) mx xmul) (quant (tbl.cy ri) my ymul)
          (quant (tbl.cz ri) mz zmul))
      let order := (List.range indices.length).mergeSort
        (fun a b => Nat.ble (mortonCodes.getD a 0) (mortonCodes.getD b 0))
      let newIndices := order.map (fun o => indices.getD o 0)
      let sortedCodes := order.map (fun o => mortonCodes.getD o 0)
      ((splitRuns (newIndices.zip sortedCodes)).map
        (fun run => if 256 < run.length then recur (run.map Prod.fst) else run.map Prod.fst)).flatten

/-- The recursive Morton reorder (`sortMortonOrder`): the source recursion
carries no fuel (it terminates because every refined run is strictly split);
here the recursion depth is made explicit and the permutation theorem holds
for every depth. -/
def sortMortonOrder (tbl : PosTable) : ℕ → List ℕ → List ℕ
  | 0, indices => indices
  | fuel + 1, indices => mortonPass tbl (sortMortonOrder tbl fuel) indices

/-- The spherical-harmonic column names `f_rest_0..f_rest_44`
(`src/src/op/transform.cpp`, `shNames`). -/
def shNames : List String := (List.range 45).map (fun i => "f_rest_" ++ toString i)

/-- First missing `f_rest_*` index: the first `i < 45` such that column
`f_rest_i` is absent, −1 when all 45 are present (transform.cpp lines 81-87;
the same loop appears in sog_writer.cpp lines 368-374). -/
def firstMissingShIndex (cols : List String) : Int :=
  match (List.range 45).find? (fun i => !cols.contains (shNames.getD i "")) with
  | some i => (i : Int)
  | none => -1

/-- Band detection of the transform (`src/src/op/transform.cpp` lines 91-101),
embedded as written: the `missingIndex > 23` test is nested inside the
`missingIndex <= 9` branch. -/
def shBandsTransform (missingIndex : Int) : ℕ :=
  if missingIndex = -1 then 3
  else if missingIndex ≤ 9 then
    (if missingIndex > 8 then 1
     else if missingIndex > 23 then 2
     else 0)
  else 0

/-- Coefficient count per color channel for a band count
(transform.cpp line 116). -/
def shCoeffsPerChannel (shBands : ℕ) : ℕ :=
  if shBands = 1 then 3 else if shBands = 2 then 8 else if shBands = 3 then 15 else 0

/-- Band detection of the SOG writer (`src/src/writers/sog_writer.cpp`
lines 376-384). -/
def shBandsSog (missingIdx : Int) : ℕ :=
  if missingIdx = 9 then 1
  else if missingIdx = 24 then 2
  else if missingIdx = -1 then 3
  else 0

/-- The column-name set of a table carrying `f_rest_0..f_rest_23` (two SH
bands). -/
def l2RestColumnNames : List String := (List.range 24).map (fun i => "f_rest_" ++ toString i)

/-- Population count of a 32-bit word (`absl::popcount`; the child masks it
is applied to are 8-bit): the number of set bits below 32, computed as a
bounded scan so that the definition reduces in the kernel. -/
def popcount (n : ℕ) : ℕ :=
  (List.range 32).countP (fun b => n.testBit b)

/-- Per-level SoA data of the bottom-up octree build
(`src/src/spatial/sparse_octree.cpp`, `LevelData`): block type codes are
0 = empty, 1 = solid, 2 = mixed. -/
structure LevelData where
  mortons : List ℕ
  types : List ℕ
  maskIndices : List ℤ
  childMasks : List ℕ
deriving Repr, DecidableEq, Inhabited

/-- Sentinel marking a solid leaf in the flattened array
(`src/include/splat/maths/maths.h`, `SOLID_LEAF_MARKER = 0xFF000000`). -/
def SOLID_LEAF_MARKER : ℕ := 0xFF000000

/-- The binary search of `flattenTreeFromLevels`
(`src/src/spatial/sparse_octree.cpp` lines 195-203): first position in
`[lo, hi)` of the sorted morton list whose value is `≥ t`.  The search window
halves each step, so any fuel of at least `hi − lo` reproduces the source
loop exactly; fuel keeps the recursion structural. -/
def lbGo (ms : List ℕ) (t : ℕ) : ℕ → ℕ → ℕ → ℕ
  | 0, lo, _ => lo
  | fuel + 1, lo, hi =>
    if lo < hi then
      if ms.getD ((lo + hi) / 2) 0 < t then lbGo ms t fuel ((lo + hi) / 2 + 1) hi
      else lbGo ms t fuel lo ((lo + hi) / 2)
    else lo

/-- The child-collection scan (sparse_octree.cpp lines 206-210): starting at
`lo`, take wave entries `(childLi, lo)` while `mortons[lo] < endCode`.  The
position grows each step, so any fuel of at least `ms.length + 1 − lo`
reproduces the source loop exactly. -/
def collectChildren (ms : List ℕ) (childLi : ℕ) (endCode : ℕ) : ℕ → ℕ → List (ℕ × ℕ)
  | 0, _ => []
  | fuel + 1, lo =>
    if lo < ms.length ∧ ms.getD lo 0 < endCode then
      (childLi, lo) :: collectChildren ms childLi endCode fuel (lo + 1)
    else []

/-- Leaf test of the flattening wave (sparse_octree.cpp line 148): a node is a
leaf when it is solid or sits at level 0. -/
def nodeIsLeaf (levels : List LevelData) (e : ℕ × ℕ) : Bool :=
  ((levels.getD e.1 default).types.getD e.2 0 == 1) || (e.1 == 0)

/-- Child mask of a wave entry (`level.childMasks[ii]`). -/
def nodeMask (levels : List LevelData) (e : ℕ × ℕ) : ℕ :=
  (levels.getD e.1 default).childMasks.getD e.2 0

/-- The children of an interior wave entry, located by binary search in the
level below and collected in morton order (sparse_octree.cpp lines 186-211). -/
def nodeKids (levels : List LevelData) (e : ℕ × ℕ) : List (ℕ × ℕ) :=
  let childLevel := levels.getD (e.1 - 1) default
  let base := (levels.getD e.1 default).mortons.getD e.2 0 * 8
  collectChildren childLevel.mortons (e.1 - 1) (base + 8) (childLevel.mortons.length + 1)
    (lbGo childLevel.mortons base (childLevel.mortons.length + 1) 0 childLevel.mortons.length)

/-- One BFS wave of `flattenTreeFromLevels` (sparse_octree.cpp lines 139-216),
as a recursion over the wave entries: emits one 32-bit word per node, threads
the leaf-data list through mixed leaves and the running child base offset
through interior nodes, and gathers the next wave.  The argument `ncs` is the
source's `nextChildStart`, initialized by the caller to the emit position
after this wave; the source writes placeholders first and backfills the
interior encodings after the wave, which produces the same array contents.
Returns (values, next wave, final nextChildStart, leaf data). -/
def processWave (levels : List LevelData) (mixedMasks : List ℕ) :
    List (ℕ × ℕ) → ℕ → List ℕ → List ℕ × List (ℕ × ℕ) × ℕ × List ℕ
  | [], ncs, ld => ([], [], ncs, ld)
  | e :: rest, ncs, ld =>
    if nodeIsLeaf levels e then
      if (levels.getD e.1 default).types.getD e.2 0 = 1 then
        let out := processWave levels mixedMasks rest ncs ld
        (SOLID_LEAF_MARKER :: out.1, out.2)
      else
        let maskIdx := ((levels.getD e.1 default).maskIndices.getD e.2 (-1)).toNat
        let leafDataIndex := ld.length / 2
        let out := processWave levels mixedMasks rest ncs
          (ld ++ [mixedMasks.getD (maskIdx * 2) 0, mixedMasks.getD (maskIdx * 2 + 1) 0])
        ((leafDataIndex &&& 0xFFFFFF) :: out.1, out.2)
    else
      let mask := nodeMask levels e
      let out := processWave levels mixedMasks rest (ncs + popcount mask) ld
      ((((mask &&& 0xFF) <<< 24) ||| (ncs &&& 0xFFFFFF)) :: out.1,
        nodeKids levels e ++ out.2.1, out.2.2.1, out.2.2.2)

/-- The wave loop of the flattening (sparse_octree.cpp lines 133-222): emit
wave after wave until the wave is empty.  One unit of fuel per wave;
`levels.length` waves suffice because every wave lies one level below its
predecessor.  Returns the emitted nodes array and the leaf-data array (the
source preallocates `maxNodes` words and, due to an inverted emptiness test
on line 233, returns the whole zero-padded buffer; the emitted prefix is
modelled). -/
def flattenLoop (levels : List LevelData) (mixedMasks : List ℕ) :
    ℕ → List ℕ → List ℕ → List (ℕ × ℕ) → List ℕ × List ℕ
  | 0, emitted, ld, _ => (emitted, ld)
  | fuel + 1, emitted, ld, wave =>
    if wave.isEmpty then (emitted, ld)
    else
      let pw := processWave levels mixedMasks wave (emitted.length + wave.length) ld
      flattenLoop levels mixedMasks fuel (emitted ++ pw.1) pw.2.2.2 pw.2.1

/-- The root wave: one entry per root-level node (sparse_octree.cpp
lines 118-123). -/
def rootWave (levels : List LevelData) : List (ℕ × ℕ) :=
  match levels.getLast? with
  | none => []
  | some rootLevel =>
    (List.range rootLevel.mortons.length).map (fun i => (levels.length - 1, i))

/-- The Laine–Karras flattening (`flattenTreeFromLevels`): nodes array and
leaf-data array. -/
def flattenTreeFromLevels (levels : List LevelData) (mixedMasks : List ℕ) :
    List ℕ × List ℕ :=
  flattenLoop levels mixedMasks levels.length [] [] (rootWave levels)

/-- Specification-level record of one interior node of the flattening: its
emit position, child mask, (untruncated) child base offset, and the children
allocated for it in the next wave. -/
structure IntNodeRecord where
  pos : ℕ
  mask : ℕ
  base : ℕ
  kids : List (ℕ × ℕ)
deriving Repr, DecidableEq

/-- The interior-node records of one wave: the same traversal as
`processWave`, keeping each interior node's position, mask, base offset and
children. -/
def waveRecords (levels : List LevelData) :
    List (ℕ × ℕ) → ℕ → ℕ → List IntNodeRecord
  | [], _, _ => []
  | e :: rest, pos, ncs =>
    if nodeIsLeaf levels e then waveRecords levels rest (pos + 1) ncs
    else
      ⟨pos, nodeMask levels e, ncs, nodeKids levels e⟩ ::
        waveRecords levels rest (pos + 1) (ncs + popcount (nodeMask levels e))

/-- The emission order (all waves concatenated) and all interior-node records
of the flattening run. -/
def flattenTrace (levels : List LevelData) (mixedMasks : List ℕ) :
    ℕ → ℕ → List ℕ → List (ℕ × ℕ) → List (ℕ × ℕ) × List IntNodeRecord
  | 0, _, _, _ => ([], [])
  | fuel + 1, emitStart, ld, wave =>
    if wave.isEmpty then ([], [])
    else
      let pw := processWave levels mixedMasks wave (emitStart + wave.length) ld
      let rest := flattenTrace levels mixedMasks fuel (emitStart + wave.length) pw.2.2.2 pw.2.1
      (wave ++ rest.1,
        waveRecords levels wave emitStart (emitStart + wave.length) ++ rest.2)

/-- All interior-node records of the flattening. -/
def flattenRecords (levels : List LevelData) (mixedMasks : List ℕ) : List IntNodeRecord :=
  (flattenTrace levels mixedMasks levels.length 0 [] (rootWave levels)).2

/-- The breadth-first emission order of the flattening: the wave entry emitted
at each array position. -/
def flattenOrder (levels : List LevelData) (mixedMasks : List ℕ) : List (ℕ × ℕ) :=
  (flattenTrace levels mixedMasks levels.length 0 [] (rootWave levels)).1

/-- Well-formedness of the level arrays as established by the bottom-up build
(`buildSparseOctree`, sparse_octree.cpp lines 287-366): each level's morton
list is strictly sorted, and every non-solid node above level 0 carries a
child mask below 256 whose bit `o` is set exactly when the child morton
`8·m + o` exists one level down. -/
def WFLevels (levels : List LevelData) : Prop :=
  (∀ li < levels.length, ((levels.getD li default).mortons).Pairwise (· < ·)) ∧
  (∀ li < levels.length, 0 < li →
    ∀ ii < (levels.getD li default).mortons.length,
      (levels.getD li default).types.getD ii 0 ≠ 1 →
        (levels.getD li default).childMasks.getD ii 0 < 256 ∧
        (∀ o < 8,
          (((levels.getD li default).childMasks.getD ii 0).testBit o ↔
            ((levels.getD li default).mortons.getD ii 0 * 8 + o) ∈
              (levels.getD (li - 1) default).mortons)))

/-- A two-level octree: two solid leaf blocks with mortons 0 and 1 below a
single mixed root with child mask 3. -/
def octreeExampleLevels : List LevelData :=
  [⟨[0, 1], [1, 1], [-1, -1], [0, 0]⟩, ⟨[0], [2], [-1], [3]⟩]

/-- Validity of a wave: every entry sits at level `L` with an in-range node
index. -/
def waveValid (levels : List LevelData) (L : ℕ) (wave : List (ℕ × ℕ)) : Prop :=
  ∀ e ∈ wave, e.1 = L ∧ e.2 < (levels.getD L default).mortons.length

/-- C1: the driver does not recognize the standard fourteen-column splat table:
the `required_columns` list of `isGSDataTable` contains the single malformed
name `rot_0\x27, \x27rot_1\x27, \x27rot_2\x27, \x27rot_3` instead of the four
separate rotation columns, so a table carrying exactly the standard columns
fails the schema check (and the `{x,y,z}`-only table fails too). -/
theorem isGSDataTable_rejects_standard_splat_table :
    isGSDataTable standardSplatTable = false ∧ isGSDataTable xyzOnlyTable = false := by
  decide

/-- C2: the driver's environment split is not a partition: a table whose `lod`
column is constant −1 lands in both the environment and the non-environment
group (because `some(-1)` also holds for it), and a table whose `lod` column
contains no −1 lands in neither group. -/
theorem envSplit_not_a_partition :
    (envSplit [lodAllEnvTable, lodNoEnvTable]).1 = [lodAllEnvTable] ∧
    (envSplit [lodAllEnvTable, lodNoEnvTable]).2 = [lodAllEnvTable] := by
  decide

/-- C10: combining a singleton list of tables returns that table unchanged
(the source moves `dataTables[0]` out without touching it). -/
theorem combine_singleton_identity (t : DataTable) : combine [t] = some t := rfl

/-- C3: the centroid-recomputation step of k-means does not compute the mean
of a cluster's members: on the table with columns a = [1,5], b = [3,7] and
the cluster {0,1}, `calcAverage` yields a = 1, b = 7 (its inner loop reads
`keys[i]` with the member index `i` instead of `keys[j]`), while the mean of
the members is a = 3, b = 5; moreover the assignment step
`clusterKdTreeCpu` has an empty body and leaves the labels untouched, so
rows are never assigned to their nearest centroids. -/
theorem calcAverage_is_not_members_mean :
    (calcAverage kmeansExampleTable [0, 1]).map Prod.fst = ["a", "b"] ∧
    Fx.beq ((calcAverage kmeansExampleTable [0, 1]).getD 0 ("", 0)).2 1 = true ∧
    Fx.beq ((calcAverage kmeansExampleTable [0, 1]).getD 1 ("", 0)).2 7 = true ∧
    Fx.beq ((clusterMean kmeansExampleTable [0, 1]).getD 0 ("", 0)).2 3 = true ∧
    Fx.beq ((clusterMean kmeansExampleTable [0, 1]).getD 1 ("", 0)).2 5 = true ∧
    clusterKdTreeCpu [7, 7] = [7, 7] := by
  decide

/-- C4: for the unit quaternion (1,0,0,0) the largest-magnitude component is
i* = 0, and the packing stores components (0,1,2) in channels R,G,B — the
largest component itself in R and never component 3 — instead of the
canonical remaining-component order (1,2,3); the alpha tag 252 + i* = 252
matches the claim. -/
theorem quats_channel_order_diverges_from_canonical :
    (quatChannelSources [1, 0, 0, 0]).1 = [0, 1, 2] ∧
    canonicalQuatIdxMap.getD (maxComp [1, 0, 0, 0]) [] = [1, 2, 3] ∧
    (quatChannelSources [1, 0, 0, 0]).2 = 252 := by
  decide

/-- C6: for a single splat (n = 1) the writer's grid is width 4 but height 0:
the height formula divides with truncating integer division before `ceil`
can act, so `width·height = 0 < n` and the splat has no pixel, while the
spec formula gives height 4. -/
theorem sog_grid_height_truncates :
    sogTextureWidth 1 = 4 ∧ sogTextureHeight 1 = 0 ∧
    sogTextureWidth 1 * sogTextureHeight 1 < 1 ∧ sogTextureHeightSpec 1 = 4 := by
  decide

/-- Flattening the run decomposition recovers the original pair list. -/
theorem splitRuns_flatten (l : List (ℕ × ℕ)) : (splitRuns l).flatten = l := by
  induction l with
  | nil => rfl
  | cons p rest ih =>
    simp only [splitRuns]
    cases h : splitRuns rest with
    | nil =>
      rw [h] at ih
      simp only [List.flatten_nil] at ih
      simp [← ih]
    | cons run runs =>
      rw [h] at ih
      by_cases hc : (run.headD p).2 = p.2
      · simp only [hc, if_pos rfl, List.flatten_cons] at ih ⊢
        simp [← ih]
      · simp only [hc, if_neg, List.flatten_cons] at ih ⊢
        simp [← ih]

/-- Refining each long run through a permutation-preserving `recur` and
flattening permutes the concatenation of the runs. -/
theorem runs_map_perm (recur : List ℕ → List ℕ) (hrec : ∀ run, (recur run).Perm run)
    (rs : List (List (ℕ × ℕ))) :
    ((rs.map (fun run =>
        if 256 < run.length then recur (run.map Prod.fst) else run.map Prod.fst)).flatten).Perm
      (rs.flatten.map Prod.fst) := by
  induction rs with
  | nil => simp
  | cons run rs ih =>
    simp only [List.map_cons, List.flatten_cons, List.map_append]
    refine List.Perm.append ?_ ih
    by_cases h : 256 < run.length
    · simpa [h] using hrec (run.map Prod.fst)
    · simp [h]

/-- Reading a list back through `getD` along `range` is the identity. -/
theorem map_getD_range {α : Type} (l : List α) (d : α) :
    (List.range l.length).map (fun o => l.getD o d) = l := by
  induction l with
  | nil => rfl
  | cons a t ih =>
    rw [List.length_cons, List.range_succ_eq_map, List.map_cons, List.map_map]
    simp only [Function.comp_def, List.getD_cons_zero, List.getD_cons_succ]
    rw [ih]

/-- One Morton pass permutes the index buffer whenever the run refinement
does. -/
theorem mortonPass_perm (tbl : PosTable) (recur : List ℕ → List ℕ)
    (hrec : ∀ run, (recur run).Perm run) (indices : List ℕ) :
    (mortonPass tbl recur indices).Perm indices := by
  simp only [mortonPass]
  split
  · exact List.Perm.refl _
  split
  · exact List.Perm.refl _
  refine ((runs_map_perm recur hrec _).trans ?_)
  rw [splitRuns_flatten, List.map_fst_zip _ _ (by simp)]
  conv_rhs => rw [← map_getD_range indices 0]
  exact List.Perm.map _ (List.mergeSort_perm _ _)

/-- C7: the Morton reorder returns a permutation of its input index buffer at
every recursion depth, including through the recursive refinement of runs of
equal Morton codes longer than 256. -/
theorem sortMortonOrder_perm (tbl : PosTable) :
    ∀ (fuel : ℕ) (indices : List ℕ), (sortMortonOrder tbl fuel indices).Perm indices := by
  intro fuel
  induction fuel with
  | zero => intro indices; exact List.Perm.refl _
  | succ fuel ih => intro indices; exact mortonPass_perm tbl _ ih indices

/-- C5: in the maths-variant BVH build, whenever a node is split (more than
256 indices and a valid widest axis), the right child equals the left child:
both are built from the first half of the partitioned indices, because the
source passes `leftIndices` to both recursive calls.  The union of the two
children's index sets is therefore the first half alone, not the parent's
index set. -/
theorem btree_maths_right_child_equals_left_child (centroids : List (ℕ → Fx)) (fuel : ℕ)
    (indices : List ℕ) (h : 256 < indices.length)
    (hax : (AABB.fromCentroids centroids indices).largestAxis ≠ -1) :
    (BTree.recurse centroids (fuel + 1) indices).rightChild =
      (BTree.recurse centroids (fuel + 1) indices).leftChild := by
  simp only [BTree.recurse]
  rw [if_neg (by omega), if_neg hax]
  rfl

set_option maxRecDepth 100000 in
/-- Witness: a concrete split node (one centroid column holding the row index,
300 rows) on which the hypotheses of
`btree_maths_right_child_equals_left_child` hold. -/
theorem btree_maths_right_child_equals_left_child_witness :
    256 < (List.range 300).length ∧
    (AABB.fromCentroids [fun i => ⟨(i : ℤ), 1⟩] (List.range 300)).largestAxis ≠ -1 ∧
    (BTree.recurse [fun i => ⟨(i : ℤ), 1⟩] 1 (List.range 300)).rightChild =
      (BTree.recurse [fun i => ⟨(i : ℤ), 1⟩] 1 (List.range 300)).leftChild :=
  ⟨by decide, by decide,
    btree_maths_right_child_equals_left_child _ 0 _ (by decide) (by decide)⟩

/-- C8: for a table carrying exactly `f_rest_0..f_rest_23` the first missing
index is 24, and the transform's band detection yields 0 bands and 0
coefficients per channel (its `missingIndex > 23` test is unreachable inside
the `missingIndex <= 9` branch), so no SH coefficients are rotated — while
the SOG writer's detection of the same index yields the 2 bands the claim
describes. -/
theorem transform_l2_table_rotates_nothing :
    firstMissingShIndex l2RestColumnNames = 24 ∧
    shBandsTransform (firstMissingShIndex l2RestColumnNames) = 0 ∧
    shCoeffsPerChannel (shBandsTransform (firstMissingShIndex l2RestColumnNames)) = 0 ∧
    shBandsSog (firstMissingShIndex l2RestColumnNames) = 2 := by
  decide

/-- In a strictly sorted list, earlier positions hold smaller values. -/
theorem sorted_getD_lt {ms : List ℕ} (hs : ms.Pairwise (· < ·)) {i j : ℕ}
    (hij : i < j) (hj : j < ms.length) : ms.getD i 0 < ms.getD j 0 := by
  rw [List.pairwise_iff_getElem] at hs
  have h := hs i j (lt_trans hij hj) hj hij
  rwa [List.getD_eq_getElem _ _ (lt_trans hij hj), List.getD_eq_getElem _ _ hj]

/-- If the first `k` positions are all below `e`, at least `k` elements are. -/
theorem le_countP_of_prefix_lt {ms : List ℕ} {e k : ℕ} (hk : k ≤ ms.length)
    (h : ∀ i, i < k → ms.getD i 0 < e) :
    k ≤ ms.countP (fun x => decide (x < e)) := by
  have h1 : (ms.take k).countP (fun x => decide (x < e)) ≤
      ms.countP (fun x => decide (x < e)) :=
    (List.take_sublist k ms).countP_le _
  have h2 : (ms.take k).countP (fun x => decide (x < e)) = (ms.take k).length := by
    rw [List.countP_eq_length]
    intro a ha
    rcases List.mem_iff_getElem.1 ha with ⟨i, hi, rfl⟩
    have hik : i < k := lt_of_lt_of_le hi (by simp [List.length_take])
    have him : i < ms.length := lt_of_lt_of_le hi (by simp [List.length_take])
    have := h i hik
    rw [List.getD_eq_getElem _ _ him] at this
    simpa [List.getElem_take] using this
  rw [h2, List.length_take] at h1
  omega

/-- In a strictly sorted list, if position `k` already reaches `e`, fewer than
`k + 1` elements are below `e`. -/
theorem countP_le_of_getD_ge {ms : List ℕ} (hs : ms.Pairwise (· < ·)) {e k : ℕ}
    (hk : k < ms.length) (he : e ≤ ms.getD k 0) :
    ms.countP (fun x => decide (x < e)) ≤ k := by
  conv_lhs => rw [← List.take_append_drop k ms]
  rw [List.countP_append]
  have h1 : (ms.take k).countP (fun x => decide (x < e)) ≤ k := by
    calc (ms.take k).countP (fun x => decide (x < e)) ≤ (ms.take k).length :=
        List.countP_le_length _
      _ ≤ k := by simp [List.length_take]
  have h2 : (ms.drop k).countP (fun x => decide (x < e)) = 0 := by
    rw [List.countP_eq_zero]
    intro a ha
    rcases List.mem_iff_getElem.1 ha with ⟨i, hi, rfl⟩
    have hki : k + i < ms.length := by
      have := hi; simp [List.length_drop] at this; omega
    rw [List.getElem_drop]
    simp only [decide_eq_true_eq, Nat.not_lt]
    rcases Nat.eq_zero_or_pos i with h0 | h0
    · subst h0
      rw [List.getD_eq_getElem _ _ hk] at he
      simpa using he
    · have hlt : ms.getD k 0 < ms.getD (k + i) 0 := sorted_getD_lt hs (by omega) hki
      rw [List.getD_eq_getElem _ _ hki] at hlt
      omega
  omega

/-- Positions below the count of small elements hold small elements. -/
theorem getD_lt_of_lt_countP {ms : List ℕ} (hs : ms.Pairwise (· < ·)) {e i : ℕ}
    (hi : i < ms.countP (fun x => decide (x < e))) :
    i < ms.length ∧ ms.getD i 0 < e := by
  have hlen : i < ms.length := lt_of_lt_of_le hi (List.countP_le_length _)
  refine ⟨hlen, ?_⟩
  by_contra hgt
  push_neg at hgt
  exact absurd (countP_le_of_getD_ge hs hlen hgt) (by omega)

/-- The binary search returns the number of elements below the target: on a
strictly sorted list, `lbGo` with enough fuel computes the lower bound. -/
theorem lbGo_eq_countP {ms : List ℕ} (hs : ms.Pairwise (· < ·)) (t : ℕ) :
    ∀ (fuel lo hi : ℕ), hi - lo ≤ fuel → hi ≤ ms.length →
      lo ≤ ms.countP (fun x => decide (x < t)) →
      ms.countP (fun x => decide (x < t)) ≤ hi →
      lbGo ms t fuel lo hi = ms.countP (fun x => decide (x < t)) := by
  intro fuel
  induction fuel with
  | zero =>
    intro lo hi h1 h2 h3 h4
    simp only [lbGo]
    omega
  | succ fuel ih =>
    intro lo hi h1 h2 h3 h4
    simp only [lbGo]
    by_cases hlt : lo < hi
    · rw [if_pos hlt]
      by_cases hmid : ms.getD ((lo + hi) / 2) 0 < t
      · rw [if_pos hmid]
        refine ih _ _ (by omega) h2 ?_ h4
        refine le_countP_of_prefix_lt (by omega) ?_
        intro i hi'
        rcases Nat.lt_or_ge i ((lo + hi) / 2) with h | h
        · exact lt_trans (sorted_getD_lt hs h (by omega)) hmid
        · have : i = (lo + hi) / 2 := by omega
          rw [this]; exact hmid
      · rw [if_neg hmid]
        push_neg at hmid
        exact ih _ _ (by omega) (by omega) h3 (countP_le_of_getD_ge hs (by omega) hmid)
    · rw [if_neg hlt]
      omega

/-- The collection scan returns exactly the positions of the remaining
elements below `e`: on a strictly sorted list it is the position range from
`lo` to the count of elements below `e`. -/
theorem collectChildren_spec {ms : List ℕ} (hs : ms.Pairwise (· < ·)) (cl e : ℕ) :
    ∀ (fuel lo : ℕ), ms.length + 1 - lo ≤ fuel →
      lo ≤ ms.countP (fun x => decide (x < e)) →
      collectChildren ms cl e fuel lo =
        (List.range' lo (ms.countP (fun x => decide (x < e)) - lo)).map
          (fun i => (cl, i)) := by
  intro fuel
  induction fuel with
  | zero =>
    intro lo h1 h2
    have hcl : ms.countP (fun x => decide (x < e)) ≤ ms.length :=
      List.countP_le_length _
    omega
  | succ fuel ih =>
    intro lo h1 h2
    simp only [collectChildren]
    rcases Nat.lt_or_ge lo (ms.countP (fun x => decide (x < e))) with hlo | hlo
    · obtain ⟨hlen, hval⟩ := getD_lt_of_lt_countP hs hlo
      rw [if_pos ⟨hlen, hval⟩]
      rw [ih (lo + 1) (by omega) (by omega)]
      have hn : ms.countP (fun x => decide (x < e)) - lo =
          (ms.countP (fun x => decide (x < e)) - (lo + 1)) + 1 := by omega
      rw [hn, List.range'_succ, List.map_cons]
    · have hcond : ¬(lo < ms.length ∧ ms.getD lo 0 < e) := by
        rintro ⟨hl, hv⟩
        have : lo + 1 ≤ ms.countP (fun x => decide (x < e)) := by
          refine le_countP_of_prefix_lt (by omega) ?_
          intro i hi'
          rcases Nat.lt_or_ge i lo with h | h
          · exact (getD_lt_of_lt_countP hs (by omega)).2
          · have : i = lo := by omega
            rw [this]; exact hv
        omega
      rw [if_neg hcond]
      have : ms.countP (fun x => decide (x < e)) - lo = 0 := by omega
      rw [this]
      rfl

/-- Counting below `b + w` splits into counting below `b` and counting inside
the window `[b, b + w)`. -/
theorem countP_window_split (ms : List ℕ) (b w : ℕ) :
    ms.countP (fun x => decide (x < b + w)) =
      ms.countP (fun x => decide (x < b)) +
        ms.countP (fun x => decide (b ≤ x ∧ x < b + w)) := by
  induction ms with
  | nil => rfl
  | cons a l ih =>
    simp only [List.countP_cons, ih, decide_eq_true_eq]
    split_ifs <;> omega

/-- For a mask below 256 the 32-bit population count only sees the low 8
bits. -/
theorem popcount_lt_256 {mask : ℕ} (hm : mask < 256) :
    popcount mask = (List.range 8).countP (fun o => mask.testBit o) := by
  have h32 : List.range 32 = List.range 8 ++ (List.range 24).map (8 + ·) := by
    rw [← List.range_add]
  rw [popcount, h32, List.countP_append]
  have hz : ((List.range 24).map (8 + ·)).countP (fun o => mask.testBit o) = 0 := by
    rw [List.countP_eq_zero]
    intro o ho
    rcases List.mem_map.1 ho with ⟨i, _, rfl⟩
    simp only [Bool.not_eq_true]
    refine Nat.testBit_eq_false_of_lt ?_
    calc mask < 256 := hm
      _ = 2 ^ 8 := rfl
      _ ≤ 2 ^ (8 + i) := Nat.pow_le_pow_right (by omega) (by omega)
  rw [hz]
  simp

/-- On a strictly sorted morton list, the number of elements inside the window
`[8m, 8m + 8)` equals the population count of a mask whose bit `o` records
whether `8m + o` is present. -/
theorem countP_window_eq_popcount {ms : List ℕ} (hs : ms.Pairwise (· < ·))
    {mask m : ℕ} (hm : mask < 256)
    (hbits : ∀ o < 8, mask.testBit o ↔ (m * 8 + o) ∈ ms) :
    ms.countP (fun x => decide (m * 8 ≤ x ∧ x < m * 8 + 8)) = popcount mask := by
  rw [popcount_lt_256 hm]
  have hcongr : (List.range 8).countP (fun o => mask.testBit o) =
      (List.range 8).countP (fun o => decide ((m * 8 + o) ∈ ms)) := by
    refine List.countP_congr ?_
    intro o ho
    have ho8 : o < 8 := List.mem_range.1 ho
    simp [hbits o ho8]
  rw [hcongr]
  rw [List.countP_eq_length_filter, List.countP_eq_length_filter]
  have hndms : ms.Nodup := hs.nodup
  set F := ms.filter (fun x => decide (m * 8 ≤ x ∧ x < m * 8 + 8)) with hF
  set G := (List.range 8).filter (fun o => decide ((m * 8 + o) ∈ ms)) with hG
  have hmem : ∀ x, x ∈ F ↔ x ∈ G.map (fun o => m * 8 + o) := by
    intro x
    constructor
    · intro hx
      rcases List.mem_filter.1 hx with ⟨hxms, hxw⟩
      simp only [decide_eq_true_eq] at hxw
      refine List.mem_map.2 ⟨x - m * 8, ?_, by omega⟩
      refine List.mem_filter.2 ⟨List.mem_range.2 (by omega), ?_⟩
      simp only [decide_eq_true_eq]
      have : m * 8 + (x - m * 8) = x := by omega
      rwa [this]
    · intro hx
      rcases List.mem_map.1 hx with ⟨o, ho, rfl⟩
      rcases List.mem_filter.1 ho with ⟨ho8, homem⟩
      simp only [decide_eq_true_eq] at homem
      have ho8' : o < 8 := List.mem_range.1 ho8
      exact List.mem_filter.2 ⟨homem, by simp only [decide_eq_true_eq]; omega⟩
  have hndF : F.Nodup := hndms.filter _
  have hndG : (G.map (fun o => m * 8 + o)).Nodup := by
    have hr : (List.range 8).Nodup := List.nodup_range 8
    refine List.Nodup.map ?_ (hr.filter _)
    intro a b hab
    have hab' : m * 8 + a = m * 8 + b := hab
    omega
  have hperm : F.Perm (G.map (fun o => m * 8 + o)) :=
    (List.perm_ext_iff_of_nodup hndF hndG).2 hmem
  calc F.length = (G.map (fun o => m * 8 + o)).length := hperm.length_eq
    _ = G.length := List.length_map _ _

/-- The children collected for a well-formed interior node: their number is
the population count of its child mask, and each child is a valid entry one
level below. -/
theorem nodeKids_spec (levels : List LevelData) (hWF : WFLevels levels)
    (L ii : ℕ) (hL0 : 0 < L) (hL : L < levels.length)
    (hii : ii < (levels.getD L default).mortons.length)
    (hty : (levels.getD L default).types.getD ii 0 ≠ 1) :
    (nodeKids levels (L, ii)).length = popcount (nodeMask levels (L, ii)) ∧
    nodeMask levels (L, ii) < 256 ∧
    ∀ p ∈ nodeKids levels (L, ii),
      p.1 = L - 1 ∧ p.2 < (levels.getD (L - 1) default).mortons.length := by
  obtain ⟨hsorted, hmasks⟩ := hWF
  have hsChild : ((levels.getD (L - 1) default).mortons).Pairwise (· < ·) :=
    hsorted (L - 1) (by omega)
  obtain ⟨hm256, hbits⟩ := hmasks L hL hL0 ii hii hty
  set ms := (levels.getD (L - 1) default).mortons with hms
  set b := (levels.getD L default).mortons.getD ii 0 * 8 with hb
  have hcountb_le : ms.countP (fun x => decide (x < b)) ≤ ms.length :=
    List.countP_le_length _
  have hlb : lbGo ms b (ms.length + 1) 0 ms.length =
      ms.countP (fun x => decide (x < b)) :=
    lbGo_eq_countP hsChild b (ms.length + 1) 0 ms.length (by omega) (le_refl _)
      (by omega) hcountb_le
  have hmono : ms.countP (fun x => decide (x < b)) ≤
      ms.countP (fun x => decide (x < b + 8)) := by
    refine List.countP_mono_left ?_
    intro x _ hx
    simp only [decide_eq_true_eq] at hx ⊢
    omega
  have hcoll : nodeKids levels (L, ii) =
      (List.range' (ms.countP (fun x => decide (x < b)))
        (ms.countP (fun x => decide (x < b + 8)) -
          ms.countP (fun x => decide (x < b)))).map (fun i => (L - 1, i)) := by
    rw [nodeKids]
    simp only
    rw [hlb]
    exact collectChildren_spec hsChild (L - 1) (b + 8) (ms.length + 1) _ (by omega) hmono
  have hwin : ms.countP (fun x => decide (x < b + 8)) -
      ms.countP (fun x => decide (x < b)) = popcount (nodeMask levels (L, ii)) := by
    rw [countP_window_split ms b 8]
    have : ms.countP (fun x => decide (b ≤ x ∧ x < b + 8)) =
        popcount (nodeMask levels (L, ii)) := by
      refine countP_window_eq_popcount hsChild hm256 ?_
      intro o ho
      exact hbits o ho
    omega
  refine ⟨?_, hm256, ?_⟩
  · rw [hcoll, List.length_map, List.length_range', hwin]
  · intro p hp
    rw [hcoll] at hp
    rcases List.mem_map.1 hp with ⟨i, hi, rfl⟩
    have := List.mem_range'.1 hi
    refine ⟨rfl, ?_⟩
    have hle : ms.countP (fun x => decide (x < b + 8)) ≤ ms.length :=
      List.countP_le_length _
    simp only
    omega

/-- A wave emits exactly one 32-bit word per entry. -/
theorem processWave_length (levels : List LevelData) (mm : List ℕ) :
    ∀ (wave : List (ℕ × ℕ)) (ncs : ℕ) (ld : List ℕ),
      (processWave levels mm wave ncs ld).1.length = wave.length := by
  intro wave
  induction wave with
  | nil => intro ncs ld; rfl
  | cons e rest ih =>
    intro ncs ld
    simp only [processWave]
    split
    · split <;> simp [ih]
    · simp [ih]

/-- The next wave is the concatenation of the per-record children lists. -/
theorem processWave_nextWave (levels : List LevelData) (mm : List ℕ) :
    ∀ (wave : List (ℕ × ℕ)) (pos ncs : ℕ) (ld : List ℕ),
      (processWave levels mm wave ncs ld).2.1 =
        ((waveRecords levels wave pos ncs).map IntNodeRecord.kids).flatten := by
  intro wave
  induction wave with
  | nil => intro pos ncs ld; rfl
  | cons e rest ih =>
    intro pos ncs ld
    simp only [processWave, waveRecords]
    by_cases h1 : nodeIsLeaf levels e
    · rw [if_pos h1, if_pos h1]
      split <;> exact ih (pos + 1) ncs _
    · rw [if_neg h1, if_neg h1]
      simp only [List.map_cons, List.flatten_cons]
      rw [ih (pos + 1) (ncs + popcount (nodeMask levels e)) ld]

/-- Every record of a wave sits at a position inside the wave, and the emitted
word at that position is its Laine–Karras interior encoding. -/
theorem waveRecords_pos_value (levels : List LevelData) (mm : List ℕ) :
    ∀ (wave : List (ℕ × ℕ)) (pos ncs : ℕ) (ld : List ℕ),
      ∀ r ∈ waveRecords levels wave pos ncs,
        pos ≤ r.pos ∧ r.pos < pos + wave.length ∧
        (processWave levels mm wave ncs ld).1.getD (r.pos - pos) 0 =
          ((r.mask &&& 0xFF) <<< 24) ||| (r.base &&& 0xFFFFFF) := by
  intro wave
  induction wave with
  | nil => intro pos ncs ld r hr; cases hr
  | cons e rest ih =>
    intro pos ncs ld r hr
    simp only [processWave, waveRecords] at hr ⊢
    by_cases h1 : nodeIsLeaf levels e
    · rw [if_pos h1] at hr ⊢
      by_cases h2 : (levels.getD e.1 default).types.getD e.2 0 = 1
      · rw [if_pos h2]
        obtain ⟨ha, hb, hc⟩ := ih (pos + 1) ncs ld r hr
        refine ⟨by omega, by simp; omega, ?_⟩
        have hshift : r.pos - pos = (r.pos - (pos + 1)) + 1 := by omega
        rw [hshift, List.getD_cons_succ]
        exact hc
      · rw [if_neg h2]
        obtain ⟨ha, hb, hc⟩ := ih (pos + 1) ncs
          (ld ++ [mm.getD (((levels.getD e.1 default).maskIndices.getD e.2 (-1)).toNat * 2) 0,
            mm.getD (((levels.getD e.1 default).maskIndices.getD e.2 (-1)).toNat * 2 + 1) 0])
          r hr
        refine ⟨by omega, by simp; omega, ?_⟩
        have hshift : r.pos - pos = (r.pos - (pos + 1)) + 1 := by omega
        rw [hshift, List.getD_cons_succ]
        exact hc
    · rw [if_neg h1] at hr ⊢
      rcases List.mem_cons.1 hr with hr | hr
      · subst hr
        refine ⟨le_refl _, by simp, ?_⟩
        simp
      · obtain ⟨ha, hb, hc⟩ := ih (pos + 1) (ncs + popcount (nodeMask levels e)) ld r hr
        refine ⟨by omega, by simp; omega, ?_⟩
        have hshift : r.pos - pos = (r.pos - (pos + 1)) + 1 := by omega
        rw [hshift, List.getD_cons_succ]
        exact hc

/-- Every record of a wave comes from an interior entry of the wave. -/
theorem waveRecords_mem_spec (levels : List LevelData) :
    ∀ (wave : List (ℕ × ℕ)) (pos ncs : ℕ),
      ∀ r ∈ waveRecords levels wave pos ncs,
        ∃ e ∈ wave, nodeIsLeaf levels e = false ∧ r.mask = nodeMask levels e ∧
          r.kids = nodeKids levels e := by
  intro wave
  induction wave with
  | nil => intro pos ncs r hr; cases hr
  | cons e rest ih =>
    intro pos ncs r hr
    simp only [waveRecords] at hr
    by_cases h1 : nodeIsLeaf levels e
    · rw [if_pos h1] at hr
      obtain ⟨e', he', h⟩ := ih (pos + 1) ncs r hr
      exact ⟨e', List.mem_cons_of_mem _ he', h⟩
    · rw [if_neg h1] at hr
      rcases List.mem_cons.1 hr with hr | hr
      · subst hr
        exact ⟨e, List.mem_cons_self _ _, Bool.eq_false_iff.2 h1, rfl, rfl⟩
      · obtain ⟨e', he', h⟩ := ih (pos + 1) (ncs + popcount (nodeMask levels e)) r hr
        exact ⟨e', List.mem_cons_of_mem _ he', h⟩

/-- The children of each record occupy the consecutive slots of the next wave
that start at its base offset (relative to the wave's initial
`nextChildStart`), provided every interior entry's child count matches its
mask's population count. -/
theorem waveRecords_kids_slots (levels : List LevelData) (mm : List ℕ) :
    ∀ (wave : List (ℕ × ℕ)) (pos ncs : ℕ) (ld : List ℕ),
      (∀ e ∈ wave, nodeIsLeaf levels e = false →
        (nodeKids levels e).length = popcount (nodeMask levels e)) →
      ∀ r ∈ waveRecords levels wave pos ncs,
        ncs ≤ r.base ∧
        r.base - ncs + r.kids.length ≤ (processWave levels mm wave ncs ld).2.1.length ∧
        ∀ t < r.kids.length,
          (processWave levels mm wave ncs ld).2.1.getD (r.base - ncs + t) (0, 0) =
            r.kids.getD t (0, 0) := by
  intro wave
  induction wave with
  | nil => intro pos ncs ld hcnt r hr; cases hr
  | cons e rest ih =>
    intro pos ncs ld hcnt r hr
    have hcnt' : ∀ e' ∈ rest, nodeIsLeaf levels e' = false →
        (nodeKids levels e').length = popcount (nodeMask levels e') := by
      intro e' he' h
      exact hcnt e' (List.mem_cons_of_mem _ he') h
    simp only [processWave, waveRecords] at hr ⊢
    by_cases h1 : nodeIsLeaf levels e
    · rw [if_pos h1] at hr ⊢
      split
      all_goals exact ih (pos + 1) ncs _ hcnt' r hr
    · rw [if_neg h1] at hr ⊢
      have hk : (nodeKids levels e).length = popcount (nodeMask levels e) :=
        hcnt e (List.mem_cons_self _ _) (Bool.eq_false_iff.2 h1)
      rcases List.mem_cons.1 hr with hr | hr
      · subst hr
        refine ⟨le_refl _, ?_, ?_⟩
        · simp
        · intro t ht
          simp only [Nat.sub_self, Nat.zero_add]
          exact List.getD_append _ _ _ _ ht
      · obtain ⟨ha, hb, hc⟩ :=
          ih (pos + 1) (ncs + popcount (nodeMask levels e)) ld hcnt' r hr
        refine ⟨by omega, ?_, ?_⟩
        · simp only [List.length_append]
          omega
        · intro t ht
          have hidx : r.base - ncs + t =
              (nodeKids levels e).length +
                (r.base - (ncs + popcount (nodeMask levels e)) + t) := by
            omega
          rw [hidx, List.getD_append_right _ _ _ _ (by omega)]
          have : (nodeKids levels e).length +
              (r.base - (ncs + popcount (nodeMask levels e)) + t) -
              (nodeKids levels e).length =
              r.base - (ncs + popcount (nodeMask levels e)) + t := by omega
          rw [this]
          exact hc t ht

/-- A wave of level-0 entries produces no next wave and no interior records. -/
theorem processWave_level0 (levels : List LevelData) (mm : List ℕ) :
    ∀ (wave : List (ℕ × ℕ)) (pos ncs : ℕ) (ld : List ℕ),
      (∀ e ∈ wave, e.1 = 0) →
      (processWave levels mm wave ncs ld).2.1 = [] ∧
      waveRecords levels wave pos ncs = [] := by
  intro wave
  induction wave with
  | nil => intro pos ncs ld h; exact ⟨rfl, rfl⟩
  | cons e rest ih =>
    intro pos ncs ld h
    have he : e.1 = 0 := h e (List.mem_cons_self _ _)
    have hleaf : nodeIsLeaf levels e = true := by
      simp [nodeIsLeaf, he]
    simp only [processWave, waveRecords, hleaf, if_pos]
    have hrest : ∀ e' ∈ rest, e'.1 = 0 := by
      intro e' he'
      exact h e' (List.mem_cons_of_mem _ he')
    split <;> exact ih (pos + 1) ncs _ hrest

/-- The next wave of a valid wave is valid one level below. -/
theorem processWave_valid (levels : List LevelData) (mm : List ℕ) (hWF : WFLevels levels)
    {L : ℕ} (hL : L < levels.length) :
    ∀ (wave : List (ℕ × ℕ)) (ncs : ℕ) (ld : List ℕ),
      waveValid levels L wave →
      waveValid levels (L - 1) (processWave levels mm wave ncs ld).2.1 := by
  intro wave
  induction wave with
  | nil => intro ncs ld hv p hp; cases hp
  | cons e rest ih =>
    intro ncs ld hv
    have hvrest : waveValid levels L rest := by
      intro e' he'
      exact hv e' (List.mem_cons_of_mem _ he')
    simp only [processWave]
    by_cases h1 : nodeIsLeaf levels e
    · rw [if_pos h1]
      split <;> exact ih ncs _ hvrest
    · rw [if_neg h1]
      intro p hp
      have hfalse : nodeIsLeaf levels e = false := Bool.eq_false_iff.2 h1
      have hty : (levels.getD e.1 default).types.getD e.2 0 ≠ 1 := by
        simp only [nodeIsLeaf, Bool.or_eq_false_iff, beq_eq_false_iff_ne] at hfalse
        exact hfalse.1
      have hne0 : e.1 ≠ 0 := by
        simp only [nodeIsLeaf, Bool.or_eq_false_iff, beq_eq_false_iff_ne] at hfalse
        exact fun h => hfalse.2 (by simpa using h)
      obtain ⟨he1, he2⟩ := hv e (List.mem_cons_self _ _)
      rcases List.mem_append.1 hp with hp | hp
      · obtain ⟨e1, e2⟩ := e
        simp only at he1 he2 hty hne0 hp
        subst he1
        exact (nodeKids_spec levels hWF e1 e2 (by omega) hL he2 hty).2.2
          p hp
      · exact ih (ncs + popcount (nodeMask levels e)) ld hvrest p hp

/-- The loop leaves its accumulators untouched on an empty wave. -/
theorem flattenLoop_nil_wave (levels : List LevelData) (mm : List ℕ) :
    ∀ (fuel : ℕ) (emitted ld : List ℕ),
      flattenLoop levels mm fuel emitted ld [] = (emitted, ld) := by
  intro fuel emitted ld
  cases fuel <;> simp [flattenLoop]

/-- The trace is empty on an empty wave. -/
theorem flattenTrace_nil_wave (levels : List LevelData) (mm : List ℕ) :
    ∀ (fuel es : ℕ) (ld : List ℕ),
      flattenTrace levels mm fuel es ld [] = ([], []) := by
  intro fuel es ld
  cases fuel <;> simp [flattenTrace]

/-- With at least one unit of fuel, the current wave is a prefix of the
emission order. -/
theorem flattenTrace_wave_isPrefix (levels : List LevelData) (mm : List ℕ) :
    ∀ (fuel es : ℕ) (ld : List ℕ) (wave : List (ℕ × ℕ)), 1 ≤ fuel →
      wave.length ≤ (flattenTrace levels mm fuel es ld wave).1.length ∧
      (∀ s < wave.length,
        (flattenTrace levels mm fuel es ld wave).1.getD s (0, 0) = wave.getD s (0, 0)) := by
  intro fuel es ld wave hfuel
  match fuel, wave with
  | fuel + 1, [] => simp [flattenTrace]
  | fuel + 1, w :: ws =>
    simp only [flattenTrace, List.isEmpty_cons, Bool.false_eq_true, if_false]
    constructor
    · simp
    · intro s hs
      exact List.getD_append _ _ _ _ hs

/-- Every interior entry of a valid wave has as many children as its mask has
set bits. -/
theorem hcnt_of_valid (levels : List LevelData) (hWF : WFLevels levels) {L : ℕ}
    (hL : L < levels.length) (wave : List (ℕ × ℕ)) (hv : waveValid levels L wave) :
    ∀ e ∈ wave, nodeIsLeaf levels e = false →
      (nodeKids levels e).length = popcount (nodeMask levels e) := by
  intro e he hfalse
  obtain ⟨he1, he2⟩ := hv e he
  have hty : (levels.getD e.1 default).types.getD e.2 0 ≠ 1 := by
    simp only [nodeIsLeaf, Bool.or_eq_false_iff, beq_eq_false_iff_ne] at hfalse
    exact hfalse.1
  have hne0 : e.1 ≠ 0 := by
    simp only [nodeIsLeaf, Bool.or_eq_false_iff, beq_eq_false_iff_ne] at hfalse
    exact fun h => hfalse.2 (by simpa using h)
  obtain ⟨e1, e2⟩ := e
  simp only at he1 he2 hty hne0
  subst he1
  exact (nodeKids_spec levels hWF e1 e2 (by omega) hL he2 hty).1

/-- Main invariant of the flattening loop, by induction on the wave's level:
the loop emits exactly the traced emission order after the existing prefix,
never disturbs that prefix, and every traced interior record has its encoding
stored at its position, children counted by its mask's population count, and
children located at the consecutive emission slots starting at its base
offset. -/
theorem flattenLoop_invariant (levels : List LevelData) (mm : List ℕ)
    (hWF : WFLevels levels) :
    ∀ (L : ℕ), L < levels.length →
      ∀ (fuel : ℕ), L + 1 ≤ fuel →
        ∀ (wave : List (ℕ × ℕ)), waveValid levels L wave →
          ∀ (emitted ld : List ℕ),
            ((flattenLoop levels mm fuel emitted ld wave).1.length =
              emitted.length +
                (flattenTrace levels mm fuel emitted.length ld wave).1.length) ∧
            (∀ p < emitted.length,
              (flattenLoop levels mm fuel emitted ld wave).1.getD p 0 =
                emitted.getD p 0) ∧
            (∀ r ∈ (flattenTrace levels mm fuel emitted.length ld wave).2,
              emitted.length ≤ r.pos ∧
              r.pos < r.base ∧
              r.kids.length = popcount r.mask ∧
              r.base + r.kids.length ≤
                emitted.length +
                  (flattenTrace levels mm fuel emitted.length ld wave).1.length ∧
              (∀ t < r.kids.length,
                (flattenTrace levels mm fuel emitted.length ld wave).1.getD
                  (r.base - emitted.length + t) (0, 0) = r.kids.getD t (0, 0)) ∧
              (flattenLoop levels mm fuel emitted ld wave).1.getD r.pos 0 =
                ((r.mask &&& 0xFF) <<< 24) ||| (r.base &&& 0xFFFFFF)) := by
  intro L
  induction L with
  | zero =>
    intro hL fuel hfuel wave hv emitted ld
    cases fuel with
    | zero => exact absurd hfuel (by omega)
    | succ fuel =>
      by_cases hemp : wave.isEmpty
      · have hnil : wave = [] := List.isEmpty_iff.1 hemp
        subst hnil
        rw [flattenLoop_nil_wave, flattenTrace_nil_wave]
        exact ⟨by simp, fun p hp => rfl, fun r hr => absurd hr (by simp)⟩
      · have hewave : ∀ e ∈ wave, e.1 = 0 := fun e he => (hv e he).1
        obtain ⟨hnw, hwrecs⟩ := processWave_level0 levels mm wave emitted.length
          (emitted.length + wave.length) ld hewave
        have hvl := processWave_length levels mm wave (emitted.length + wave.length) ld
        simp only [flattenLoop, flattenTrace, if_neg hemp]
        rw [hnw, hwrecs, flattenLoop_nil_wave, flattenTrace_nil_wave]
        refine ⟨by simp [hvl], ?_, ?_⟩
        · intro p hp
          exact List.getD_append _ _ _ _ hp
        · intro r hr
          simp at hr
  | succ K ih =>
    intro hL fuel hfuel wave hv emitted ld
    cases fuel with
    | zero => exact absurd hfuel (by omega)
    | succ fuel =>
      by_cases hemp : wave.isEmpty
      · have hnil : wave = [] := List.isEmpty_iff.1 hemp
        subst hnil
        rw [flattenLoop_nil_wave, flattenTrace_nil_wave]
        exact ⟨by simp, fun p hp => rfl, fun r hr => absurd hr (by simp)⟩
      · have hcnt := hcnt_of_valid levels hWF hL wave hv
        have hvnext : waveValid levels K
            (processWave levels mm wave (emitted.length + wave.length) ld).2.1 := by
          have := processWave_valid levels mm hWF hL wave
            (emitted.length + wave.length) ld hv
          simpa using this
        have hvl := processWave_length levels mm wave (emitted.length + wave.length) ld
        set pw := processWave levels mm wave (emitted.length + wave.length) ld with hpw
        have hlen2 : (emitted ++ pw.1).length = emitted.length + wave.length := by
          rw [List.length_append, hvl]
        obtain ⟨ihLen, ihPre, ihRec⟩ := ih (by omega) fuel (by omega) pw.2.1 hvnext
          (emitted ++ pw.1) pw.2.2.2
        rw [hlen2] at ihLen ihPre ihRec
        simp only [flattenLoop, flattenTrace, if_neg hemp]
        rw [← hpw]
        have hordpre := flattenTrace_wave_isPrefix levels mm fuel
          (emitted.length + wave.length) pw.2.2.2 pw.2.1 (by omega)
        refine ⟨?_, ?_, ?_⟩
        · rw [ihLen]
          simp only [List.length_append]
          omega
        · intro p hp
          rw [ihPre p (by omega)]
          exact List.getD_append _ _ _ _ hp
        · intro r hr
          rcases List.mem_append.1 hr with hr | hr
          · obtain ⟨hpos1, hpos2, hval⟩ := waveRecords_pos_value levels mm wave
              emitted.length (emitted.length + wave.length) ld r hr
            obtain ⟨hbase1, hbase2, hkids⟩ := waveRecords_kids_slots levels mm wave
              emitted.length (emitted.length + wave.length) ld hcnt r hr
            rw [← hpw] at hval hbase2 hkids
            have hkcount : r.kids.length = popcount r.mask := by
              obtain ⟨e, he, hleaf, hmask, hkidseq⟩ :=
                waveRecords_mem_spec levels wave emitted.length
                  (emitted.length + wave.length) r hr
              rw [hmask, hkidseq]
              exact hcnt e he hleaf
            have hord1 := hordpre.1
            refine ⟨hpos1, by omega, hkcount, ?_, ?_, ?_⟩
            · simp only [List.length_append]
              omega
            · intro t ht
              have hidx : r.base - emitted.length + t =
                  wave.length + (r.base - (emitted.length + wave.length) + t) := by
                omega
              rw [hidx, List.getD_append_right _ _ _ _ (by omega)]
              have hidx2 : wave.length +
                  (r.base - (emitted.length + wave.length) + t) - wave.length =
                  r.base - (emitted.length + wave.length) + t := by omega
              rw [hidx2]
              have hin : r.base - (emitted.length + wave.length) + t < pw.2.1.length := by
                omega
              rw [hordpre.2 _ hin]
              exact hkids t ht
            · rw [ihPre r.pos (by omega)]
              rw [List.getD_append_right _ _ _ _ hpos1]
              exact hval
          · obtain ⟨h1, h2, h3, h4, h5, h6⟩ := ihRec r hr
            refine ⟨by omega, h2, h3, ?_, ?_, h6⟩
            · simp only [List.length_append]
              omega
            · intro t ht
              have hidx : r.base - emitted.length + t =
                  wave.length + (r.base - (emitted.length + wave.length) + t) := by
                omega
              rw [hidx, List.getD_append_right _ _ _ _ (by omega)]
              have hidx2 : wave.length +
                  (r.base - (emitted.length + wave.length) + t) - wave.length =
                  r.base - (emitted.length + wave.length) + t := by omega
              rw [hidx2]
              exact h5 t ht

/-- C9: in the flattened Laine–Karras nodes array, under the well-formedness
the bottom-up build establishes and the format's 24-bit size limit, every
traced interior node has its stored encoding `(mask << 24) | baseOffset` at
its position with the base offset untruncated and strictly greater than the
position, the popcount of its child mask equals the number of children
allocated for it in the next breadth-first wave, and those children occupy
the consecutive emission positions `[baseOffset, baseOffset + popcount)`. -/
theorem flatten_interior_nodes_invariant (levels : List LevelData) (mm : List ℕ)
    (hWF : WFLevels levels)
    (hsz : (flattenTreeFromLevels levels mm).1.length ≤ 0xFFFFFF) :
    ∀ r ∈ flattenRecords levels mm,
      (flattenTreeFromLevels levels mm).1.getD r.pos 0 =
        ((r.mask &&& 0xFF) <<< 24) ||| (r.base &&& 0xFFFFFF) ∧
      r.base &&& 0xFFFFFF = r.base ∧
      r.pos < r.base ∧
      r.kids.length = popcount r.mask ∧
      r.base + r.kids.length ≤ (flattenTreeFromLevels levels mm).1.length ∧
      (∀ t < r.kids.length,
        (flattenOrder levels mm).getD (r.base + t) (0, 0) = r.kids.getD t (0, 0)) := by
  intro r hr
  match hlv : levels with
  | [] =>
    rw [flattenRecords] at hr
    simp [flattenTrace] at hr
  | lv0 :: lvs =>
    rw [← hlv] at hr hWF hsz ⊢
    have hne : levels ≠ [] := by rw [hlv]; simp
    have hlpos : 0 < levels.length := List.length_pos.2 hne
    have hroot : waveValid levels (levels.length - 1) (rootWave levels) := by
      intro e he
      rw [rootWave] at he
      rcases hlast : levels.getLast? with _ | rootLevel
      · rw [List.getLast?_eq_none_iff] at hlast
        exact absurd hlast hne
      · rw [hlast] at he
        rcases List.mem_map.1 he with ⟨i, hi, rfl⟩
        have hi' : i < rootLevel.mortons.length := List.mem_range.1 hi
        refine ⟨rfl, ?_⟩
        have hg : levels.getD (levels.length - 1) default = rootLevel := by
          have h1 : levels.getLast? = levels[levels.length - 1]? :=
            List.getLast?_eq_getElem? levels
          rw [hlast] at h1
          have h2 : levels[levels.length - 1]? =
              some (levels.getD (levels.length - 1) default) := by
            rw [List.getElem?_eq_getElem (by omega),
              List.getD_eq_getElem levels default (by omega)]
          rw [h2] at h1
          exact (Option.some_injective _ h1.symm)
        rw [hg]
        exact hi'
    obtain ⟨mLen, mPre, mRec⟩ := flattenLoop_invariant levels mm hWF
      (levels.length - 1) (by omega) levels.length (by omega) (rootWave levels) hroot [] []
    simp only [List.length_nil, List.getD_nil] at mLen mPre mRec
    have hr' := mRec r hr
    obtain ⟨h1, h2, h3, h4, h5, h6⟩ := hr'
    have hbound : r.base + r.kids.length ≤ (flattenTreeFromLevels levels mm).1.length := by
      rw [flattenTreeFromLevels, mLen]
      omega
    have hsmall : r.base < 2 ^ 24 := by
      have := hsz
      rw [flattenTreeFromLevels] at this
      omega
    refine ⟨h6, ?_, h2, h3, hbound, ?_⟩
    · have h24 : (0xFFFFFF : ℕ) = 2 ^ 24 - 1 := by norm_num
      rw [h24]
      exact Nat.and_pow_two_sub_one_of_lt_two_pow hsmall
    · intro t ht
      have := h5 t ht
      rw [flattenOrder]
      simpa using this

/-- Witness: the well-formedness and size hypotheses of
`flatten_interior_nodes_invariant` hold on the concrete two-level octree. -/
theorem flatten_interior_nodes_invariant_witness :
    WFLevels octreeExampleLevels ∧
    (flattenTreeFromLevels octreeExampleLevels []).1.length ≤ 0xFFFFFF ∧
    (∀ r ∈ flattenRecords octreeExampleLevels [],
      (flattenTreeFromLevels octreeExampleLevels []).1.getD r.pos 0 =
        ((r.mask &&& 0xFF) <<< 24) ||| (r.base &&& 0xFFFFFF) ∧
      r.base &&& 0xFFFFFF = r.base ∧
      r.pos < r.base ∧
      r.kids.length = popcount r.mask ∧
      r.base + r.kids.length ≤ (flattenTreeFromLevels octreeExampleLevels []).1.length ∧
      (∀ t < r.kids.length,
        (flattenOrder octreeExampleLevels []).getD (r.base + t) (0, 0) =
          r.kids.getD t (0, 0))) := by
  have hwf : WFLevels octreeExampleLevels := by
    constructor
    · intro li hli
      have hli2 : li < 2 := by simpa [octreeExampleLevels] using hli
      rcases (by omega : li = 0 ∨ li = 1) with rfl | rfl <;> decide
    · intro li hli h0 ii hii hty
      have hli2 : li < 2 := by simpa [octreeExampleLevels] using hli
      rcases (by omega : li = 0 ∨ li = 1) with rfl | rfl
      · omega
      · have hii1 : ii < 1 := by simpa [octreeExampleLevels] using hii
        have : ii = 0 := by omega
        subst this
        exact ⟨by decide, by decide⟩
  exact ⟨hwf, by decide,
    flatten_interior_nodes_invariant octreeExampleLevels [] hwf (by decide)⟩

end SplatTransform
